import Mathlib

/-!
Verification of the qubit-Hamiltonian algebra layer and the circuit
compilation layer of the openvqe/tequila repository.

The Python code stores a `QubitHamiltonian` as an OpenFermion
`QubitOperator`, whose `terms` attribute is a dict mapping a key
(a tuple of `(qubit, pauli-letter)` pairs) to a complex coefficient.
We embed the dict as an association list with distinct keys (Python
dicts cannot hold duplicate keys; `Wellformed` states this invariant),
preserving insertion order.  Complex coefficients are embedded as pairs
of rationals (`CC`), so every definition is executable; OpenFermion's
floating-point `EQ_TOLERANCE` in `isclose` is rendered as exact equality.
-/

/-- A single-qubit Pauli axis.  The Python code stores the letters
"x"/"y"/"z" (case-insensitively compared); we use a closed datatype. -/
inductive Axis where
  | X
  | Y
  | Z
deriving DecidableEq, Repr

/-- A complex number with rational real and imaginary parts; executable
stand-in for the Python `complex` coefficients. -/
structure CC where
  re : ℚ
  im : ℚ
deriving DecidableEq, Repr

namespace CC

def zero : CC := ⟨0, 0⟩

def one : CC := ⟨1, 0⟩

def add (x y : CC) : CC := ⟨x.re + y.re, x.im + y.im⟩

/-- `complex.conjugate()` in Python. -/
def conj (x : CC) : CC := ⟨x.re, -x.im⟩

/-- Multiplication by an integer sign (`sign * value` in the source,
where `sign` is built up as a product of `-1`s). -/
def zsmul (n : ℤ) (x : CC) : CC := ⟨n * x.re, n * x.im⟩

theorem conj_zero : conj zero = zero := rfl

theorem zsmul_zero (n : ℤ) : zsmul n zero = zero := by
  simp [zsmul, zero]

end CC

/-- The key of a term: the OpenFermion tuple of `(qubit, pauli)` pairs. -/
abbrev PKey := List (Nat × Axis)

/-- The `terms` dict of an OpenFermion `QubitOperator`, as an insertion
ordered association list. -/
abbrev Terms := List (PKey × CC)

/-- First-match lookup: the value a Python dict stores under `k`
(assuming the no-duplicate-keys invariant). -/
def lookupTerm (k : PKey) : Terms → Option CC
  | [] => none
  | (k0, v0) :: t => if k0 = k then some v0 else lookupTerm k t

/-- `terms.get(k, 0)`: coefficient of key `k`, defaulting to zero. -/
def coeffOf (t : Terms) (k : PKey) : CC := (lookupTerm k t).getD CC.zero

/-- `terms[k] = v` on a Python dict: replace the value under `k` if the
key is present, otherwise append the new binding at the end. -/
def setTerm : Terms → PKey → CC → Terms
  | [], k, v => [(k, v)]
  | (k0, v0) :: t, k, v =>
      if k0 = k then (k0, v) :: t else (k0, v0) :: setTerm t k v

/-- Keys of a terms dict, in insertion order. -/
def keysOf (t : Terms) : List PKey := t.map Prod.fst

theorem lookupTerm_setTerm (t : Terms) (k : PKey) (v : CC) (k' : PKey) :
    lookupTerm k' (setTerm t k v) =
      if k = k' then some v else lookupTerm k' t := by
  induction t with
  | nil =>
      by_cases h : k = k' <;> simp [setTerm, lookupTerm, h]
  | cons hd tl ih =>
      obtain ⟨k0, v0⟩ := hd
      by_cases h0 : k0 = k
      · subst h0
        by_cases h : k0 = k' <;> simp [setTerm, lookupTerm, h]
      · by_cases h : k0 = k'
        · subst h
          have hkk : ¬ k = k0 := fun hc => h0 hc.symm
          simp [setTerm, lookupTerm, h0, hkk]
        · simp [setTerm, lookupTerm, h0, h, ih]

theorem coeffOf_setTerm (t : Terms) (k : PKey) (v : CC) (k' : PKey) :
    coeffOf (setTerm t k v) k' = if k = k' then v else coeffOf t k' := by
  by_cases h : k = k' <;> simp [coeffOf, lookupTerm_setTerm, h]

theorem mem_keysOf_setTerm (t : Terms) (k k' : PKey) (v : CC) :
    k' ∈ keysOf (setTerm t k v) ↔ k' ∈ keysOf t ∨ k' = k := by
  induction t with
  | nil =>
      simp [setTerm, keysOf]
  | cons hd tl ih =>
      obtain ⟨k0, v0⟩ := hd
      by_cases h0 : k0 = k
      · subst h0
        simp [setTerm, keysOf]
        tauto
      · simp [setTerm, h0, keysOf, List.mem_cons] at ih ⊢
        tauto

theorem lookupTerm_eq_none_of_not_mem {t : Terms} {k : PKey}
    (h : k ∉ keysOf t) : lookupTerm k t = none := by
  induction t with
  | nil => rfl
  | cons hd tl ih =>
      obtain ⟨k0, v0⟩ := hd
      simp only [keysOf, List.map_cons, List.mem_cons, not_or] at h
      simp [lookupTerm, Ne.symm h.1, ih h.2]

theorem nodup_setTerm {t : Terms} {k : PKey} {v : CC}
    (h : (keysOf t).Nodup) : (keysOf (setTerm t k v)).Nodup := by
  induction t with
  | nil => simp [setTerm, keysOf]
  | cons hd tl ih =>
      obtain ⟨k0, v0⟩ := hd
      simp only [keysOf, List.map_cons, List.nodup_cons] at h
      by_cases h0 : k0 = k
      · subst h0
        simp only [setTerm, if_pos rfl]
        simpa [keysOf] using h
      · simp only [setTerm, h0, if_false, keysOf, List.map_cons,
          List.nodup_cons]
        refine ⟨fun hc => ?_, ih h.2⟩
        rcases (mem_keysOf_setTerm tl k k0 v).mp hc with h' | h'
        · exact h.1 h'
        · exact h0 h'

/-- The common shape of `conjugate`, `transpose` and `dagger`: iterate
over the items of a terms dict and write `f` of each item into an
accumulator dict. -/
def writeAll (f : PKey × CC → CC) (init : Terms) (l : Terms) : Terms :=
  l.foldl (fun acc kv => setTerm acc kv.1 (f kv)) init

theorem coeffOf_writeAll_of_not_mem (f : PKey × CC → CC) (init : Terms)
    (l : Terms) (k : PKey) (hk : k ∉ keysOf l) :
    coeffOf (writeAll f init l) k = coeffOf init k := by
  induction l generalizing init with
  | nil => rfl
  | cons hd tl ih =>
      obtain ⟨k0, v0⟩ := hd
      simp only [keysOf, List.map_cons, List.mem_cons, not_or] at hk
      have : coeffOf (writeAll f (setTerm init k0 (f (k0, v0))) tl) k
          = coeffOf (setTerm init k0 (f (k0, v0))) k := ih _ hk.2
      simpa [writeAll, coeffOf_setTerm, Ne.symm hk.1] using this

theorem coeffOf_writeAll (f : PKey × CC → CC) (init : Terms) (l : Terms)
    (hnd : (keysOf l).Nodup) (k : PKey) :
    coeffOf (writeAll f init l) k =
      match lookupTerm k l with
      | some v => f (k, v)
      | none => coeffOf init k := by
  induction l generalizing init with
  | nil => rfl
  | cons hd tl ih =>
      obtain ⟨k0, v0⟩ := hd
      simp only [keysOf, List.map_cons, List.nodup_cons] at hnd
      by_cases h : k0 = k
      · subst h
        have hnot : k0 ∉ keysOf tl := hnd.1
        have step : coeffOf (writeAll f (setTerm init k0 (f (k0, v0))) tl) k0
            = coeffOf (setTerm init k0 (f (k0, v0))) k0 :=
          coeffOf_writeAll_of_not_mem f _ tl k0 hnot
        simp [writeAll, lookupTerm] at step ⊢
        simp [step, coeffOf_setTerm]
      · have step := ih (setTerm init k0 (f (k0, v0))) hnd.2
        simp only [writeAll, List.foldl_cons] at step ⊢
        rw [step]
        cases hcase : lookupTerm k tl with
        | some v => simp [lookupTerm, h, hcase]
        | none => simp [lookupTerm, h, hcase, coeffOf_setTerm, Ne.symm h]

theorem nodup_writeAll (f : PKey × CC → CC) (init : Terms) (l : Terms)
    (h : (keysOf init).Nodup) : (keysOf (writeAll f init l)).Nodup := by
  induction l generalizing init with
  | nil => exact h
  | cons hd tl ih => exact ih _ (nodup_setTerm h)

theorem mem_keysOf_writeAll (f : PKey × CC → CC) (init : Terms) (l : Terms)
    (k : PKey) :
    k ∈ keysOf (writeAll f init l) ↔ k ∈ keysOf init ∨ k ∈ keysOf l := by
  induction l generalizing init with
  | nil => simp [writeAll, keysOf]
  | cons hd tl ih =>
      obtain ⟨k0, v0⟩ := hd
      have step : writeAll f init ((k0, v0) :: tl)
          = writeAll f (setTerm init k0 (f (k0, v0))) tl := rfl
      rw [step, ih, mem_keysOf_setTerm]
      simp [keysOf, List.mem_cons]
      tauto

/-- `PauliString`: internal storage is a dict from qubit index to Pauli
axis, plus an optional coefficient (`_coeff`, defaulting to 1). -/
structure PauliString where
  data : List (Nat × Axis)
  coeffOpt : Option CC
deriving DecidableEq, Repr

namespace PauliString

/-- The `coeff` property: `1` when `_coeff is None`. -/
def coeff (ps : PauliString) : CC :=
  match ps.coeffOpt with
  | none => CC.one
  | some c => c

/-- `key_openfermion`: the tuple of `(qubit, axis)` pairs in storage
order. -/
def key_openfermion (ps : PauliString) : PKey := ps.data

/-- dict lookup in the `_data` dict of a `PauliString`. -/
def dataLookup (q : Nat) : List (Nat × Axis) → Option Axis
  | [] => none
  | (q0, a0) :: t => if q0 = q then some a0 else dataLookup q t

/-- dict assignment `data[index] = pauli` used by
`init_from_openfermion`. -/
def dataSet : List (Nat × Axis) → Nat → Axis → List (Nat × Axis)
  | [], q, a => [(q, a)]
  | (q0, a0) :: t, q, a =>
      if q0 = q then (q0, a) :: t else (q0, a0) :: dataSet t q a

/-- `init_from_openfermion(key, coeff)`: rebuilds the `_data` dict from
an OpenFermion key by inserting each `(index, pauli)` factor. -/
def init_from_openfermion (key : PKey) (coeff : Option CC) : PauliString :=
  ⟨key.foldl (fun d term => dataSet d term.1 term.2) [], coeff⟩

/-- `PauliString.__eq__`: `self._data == other._data` -- Python dict
equality of the two qubit-to-axis dicts; the coefficient is not
compared.  Dict equality is equality as finite maps, decided here by
checking lookups on every key mentioned on either side. -/
def eqPS (a b : PauliString) : Bool :=
  (a.data.map Prod.fst ++ b.data.map Prod.fst).all
    (fun q => dataLookup q a.data == dataLookup q b.data)

end PauliString

/-- The OpenFermion `QubitOperator`: its `terms` dict. -/
structure QubitOperator where
  terms : Terms
deriving DecidableEq, Repr

namespace QubitOperator

/-- `QubitOperator.identity()`: the dict `{(): 1.0}`. -/
def identity : QubitOperator := ⟨[([], CC.one)]⟩

/-- `QubitOperator("", 0)`: the dict `{(): 0.0}` (used as the fresh
accumulator in `conjugate`, `transpose` and `dagger`). -/
def zeroOp : QubitOperator := ⟨[([], CC.zero)]⟩

/-- Stable insertion sort of an OpenFermion key by qubit index, as done
by `SymbolicOperator._parse_sequence` (Python `sorted` with
`key=lambda factor: factor[0]`, qubit factors commute). -/
def insertFactor (p : Nat × Axis) : PKey → PKey
  | [] => [p]
  | q :: t => if q.1 ≤ p.1 then q :: insertFactor p t else p :: q :: t

def sortKey : PKey → PKey
  | [] => []
  | p :: t => insertFactor p (sortKey t)

/-- `QubitOperator(term=key, coefficient=c)`: stores the sorted key with
the given coefficient. -/
def mkFromTerm (term : PKey) (coefficient : CC) : QubitOperator :=
  ⟨[(sortKey term, coefficient)]⟩

/-- `SymbolicOperator.__iadd__`: add the addend's coefficients into the
left operand's terms dict key by key. -/
def addOp (a b : QubitOperator) : QubitOperator :=
  ⟨b.terms.foldl
    (fun acc kv => setTerm acc kv.1 (CC.add (coeffOf acc kv.1) kv.2))
    a.terms⟩

/-- `SymbolicOperator.isclose` (the `==` of `QubitOperator`), rendered
exactly: the two terms dicts agree coefficient-wise, a missing key
counting as coefficient zero. -/
def beqOp (a b : QubitOperator) : Bool :=
  (keysOf a.terms ++ keysOf b.terms).all
    (fun k => coeffOf a.terms k == coeffOf b.terms k)

end QubitOperator

/-- `QubitHamiltonian`: wraps a `QubitOperator`. -/
structure QubitHamiltonian where
  hamiltonian : QubitOperator
deriving DecidableEq, Repr

namespace QubitHamiltonian

/-- `QubitHamiltonian.init_unit()` / the default constructor:
`QubitOperator.identity()`. -/
def init_unit : QubitHamiltonian := ⟨QubitOperator.identity⟩

/-- `values()`: the coefficients of the terms dict. -/
def valuesOf (H : QubitHamiltonian) : List CC :=
  H.hamiltonian.terms.map Prod.snd

/-- `keys()`: the keys of the terms dict. -/
def keys (H : QubitHamiltonian) : List PKey := keysOf H.hamiltonian.terms

/-- The Python-dict invariant: the terms dict has no duplicate keys. -/
def Wellformed (H : QubitHamiltonian) : Prop := (keys H).Nodup

instance (H : QubitHamiltonian) : Decidable (Wellformed H) := by
  unfold Wellformed
  infer_instance

/-- `is_hermitian`: scan the coefficients, `False` at the first one with
nonzero imaginary part. -/
def is_hermitian (H : QubitHamiltonian) : Bool :=
  H.hamiltonian.terms.all (fun kv => kv.2.im == 0)

/-- `is_antihermitian`: scan the coefficients, `False` at the first one
with nonzero real part. -/
def is_antihermitian (H : QubitHamiltonian) : Bool :=
  H.hamiltonian.terms.all (fun kv => kv.2.re == 0)

/-- The number of `y` factors in a key (`if p.lower() == "y"`). -/
def countY (k : PKey) : Nat := (k.filter (fun p => p.2 == Axis.Y)).length

/-- The sign accumulated in `conjugate`/`transpose`: one factor `-1`
per `y` in the key. -/
def ySign (k : PKey) : ℤ := (-1) ^ countY k

/-- `conjugate()`: write `sign * value.conjugate()` for every item into
a fresh `QubitOperator("", 0)`. -/
def conjugate (H : QubitHamiltonian) : QubitHamiltonian :=
  ⟨⟨writeAll (fun kv => CC.zsmul (ySign kv.1) (CC.conj kv.2))
      QubitOperator.zeroOp.terms H.hamiltonian.terms⟩⟩

/-- `transpose()`: write `sign * value` for every item into a fresh
`QubitOperator("", 0)`. -/
def transpose (H : QubitHamiltonian) : QubitHamiltonian :=
  ⟨⟨writeAll (fun kv => CC.zsmul (ySign kv.1) kv.2)
      QubitOperator.zeroOp.terms H.hamiltonian.terms⟩⟩

/-- `dagger()`: write `value.conjugate()` for every item into a fresh
`QubitOperator("", 0)`. -/
def dagger (H : QubitHamiltonian) : QubitHamiltonian :=
  ⟨⟨writeAll (fun kv => CC.conj kv.2)
      QubitOperator.zeroOp.terms H.hamiltonian.terms⟩⟩

/-- `QubitHamiltonian.__eq__`: delegates to the wrapped operators'
`==`. -/
def beqH (a b : QubitHamiltonian) : Bool :=
  QubitOperator.beqOp a.hamiltonian b.hamiltonian

/-- Python `max` of a list of qubit indices: raises `ValueError` on an
empty list, modelled as `none`. -/
def pyMax : List Nat → Option Nat
  | [] => none
  | n :: t =>
      match pyMax t with
      | none => some n
      | some m => some (max n m)

/-- `n_qubits`: starting from 0, fold `max(n_qubits, max(indices))` over
the items and add 1; the inner `max([])` on an empty key raises, which
propagates as `none`. -/
def n_qubits (H : QubitHamiltonian) : Option Nat :=
  (H.hamiltonian.terms.foldl
    (fun acc kv =>
      match acc, pyMax (kv.1.map Prod.fst) with
      | some n, some m => some (max n m)
      | _, _ => none)
    (some 0)).map (· + 1)

/-- The `paulistrings` getter: one `PauliString` per item of the terms
dict. -/
def paulistrings (H : QubitHamiltonian) : List PauliString :=
  H.hamiltonian.terms.map
    (fun kv => PauliString.init_from_openfermion kv.1 (some kv.2))

/-- The `paulistrings` setter, translated faithfully: the accumulator
starts at `QubitOperator.identity()`, and each iteration calls
`QubitOperator(term=ps.key_openfermion(), value=ps.coeff)`.
`QubitOperator.__init__` has no parameter named `value` (the keyword is
`coefficient`), so the first iteration raises `TypeError`; an empty
list returns the identity accumulator. -/
def paulistrings_set (other : List PauliString) :
    Except String QubitOperator :=
  match other with
  | [] => Except.ok QubitOperator.identity
  | _ => Except.error "TypeError: unexpected keyword argument value"

/-- The `paulistrings` setter with the keyword slip repaired
(`coefficient=ps.coeff`): accumulate `identity + sum of the terms`. -/
def paulistrings_set_fixed (other : List PauliString) : QubitOperator :=
  other.foldl
    (fun acc ps =>
      QubitOperator.addOp acc
        (QubitOperator.mkFromTerm ps.key_openfermion ps.coeff))
    QubitOperator.identity

end QubitHamiltonian

namespace QubitHamiltonian

theorem coeffOf_zeroOp (k : PKey) :
    coeffOf QubitOperator.zeroOp.terms k = CC.zero := by
  by_cases h : ([] : PKey) = k <;>
    simp [coeffOf, lookupTerm, QubitOperator.zeroOp, h]

theorem coeffOf_dagger_terms (t : Terms) (hnd : (t.map Prod.fst).Nodup)
    (k : PKey) :
    coeffOf (writeAll (fun kv => CC.conj kv.2) QubitOperator.zeroOp.terms t) k
      = CC.conj (coeffOf t k) := by
  rw [coeffOf_writeAll _ _ _ hnd k]
  cases hcase : lookupTerm k t with
  | some v => simp [coeffOf, hcase]
  | none =>
      rw [coeffOf_zeroOp]
      simp [coeffOf, hcase, CC.conj_zero]

theorem coeffOf_transpose_terms (t : Terms) (hnd : (t.map Prod.fst).Nodup)
    (k : PKey) :
    coeffOf (writeAll (fun kv => CC.zsmul (ySign kv.1) kv.2)
        QubitOperator.zeroOp.terms t) k
      = CC.zsmul (ySign k) (coeffOf t k) := by
  rw [coeffOf_writeAll _ _ _ hnd k]
  cases hcase : lookupTerm k t with
  | some v => simp [coeffOf, hcase]
  | none =>
      rw [coeffOf_zeroOp]
      simp [coeffOf, hcase, CC.zsmul_zero]

theorem coeffOf_conjugate_terms (t : Terms) (hnd : (t.map Prod.fst).Nodup)
    (k : PKey) :
    coeffOf (writeAll (fun kv => CC.zsmul (ySign kv.1) (CC.conj kv.2))
        QubitOperator.zeroOp.terms t) k
      = CC.zsmul (ySign k) (CC.conj (coeffOf t k)) := by
  rw [coeffOf_writeAll _ _ _ hnd k]
  cases hcase : lookupTerm k t with
  | some v => simp [coeffOf, hcase]
  | none =>
      rw [coeffOf_zeroOp]
      simp [coeffOf, hcase, CC.conj_zero, CC.zsmul_zero]

theorem conj_zsmul (n : ℤ) (x : CC) :
    CC.conj (CC.zsmul n x) = CC.zsmul n (CC.conj x) := by
  simp [CC.conj, CC.zsmul]

/-- Coefficient of `dagger(H)` under any key, stated on the operation
itself. -/
theorem coeffOf_dagger_eq (H : QubitHamiltonian) (hw : H.Wellformed)
    (k : PKey) :
    coeffOf (H.dagger).hamiltonian.terms k
      = CC.conj (coeffOf H.hamiltonian.terms k) :=
  coeffOf_dagger_terms H.hamiltonian.terms hw k

/-- Coefficient of `transpose(H)` under any key, stated on the
operation itself. -/
theorem coeffOf_transpose_eq (H : QubitHamiltonian) (hw : H.Wellformed)
    (k : PKey) :
    coeffOf (H.transpose).hamiltonian.terms k
      = CC.zsmul (ySign k) (coeffOf H.hamiltonian.terms k) :=
  coeffOf_transpose_terms H.hamiltonian.terms hw k

/-- Coefficient of `conjugate(H)` under any key, stated on the
operation itself. -/
theorem coeffOf_conjugate_eq (H : QubitHamiltonian) (hw : H.Wellformed)
    (k : PKey) :
    coeffOf (H.conjugate).hamiltonian.terms k
      = CC.zsmul (ySign k) (CC.conj (coeffOf H.hamiltonian.terms k)) :=
  coeffOf_conjugate_terms H.hamiltonian.terms hw k

theorem nodup_zeroOp : (keysOf QubitOperator.zeroOp.terms).Nodup := by
  simp [QubitOperator.zeroOp, keysOf]

theorem dagger_wellformed (H : QubitHamiltonian) :
    (H.dagger).Wellformed :=
  nodup_writeAll _ _ _ nodup_zeroOp

theorem transpose_wellformed (H : QubitHamiltonian) :
    (H.transpose).Wellformed :=
  nodup_writeAll _ _ _ nodup_zeroOp

theorem beqOp_of_pointwise {a b : QubitOperator}
    (h : ∀ k, coeffOf a.terms k = coeffOf b.terms k) :
    QubitOperator.beqOp a b = true := by
  simp only [QubitOperator.beqOp, List.all_eq_true, beq_iff_eq]
  intro k _
  exact h k

end QubitHamiltonian

/-- C6: `dagger()` complex-conjugates every coefficient and makes no
other change: on a wellformed Hamiltonian, the coefficient that
`dagger(H)` stores under any key is exactly the complex conjugate of
the coefficient `H` stores there (a missing key counting as 0), with no
Y-count sign adjustment. -/
theorem dagger_conjugates_only (H : QubitHamiltonian) (hw : H.Wellformed)
    (k : PKey) :
    coeffOf (H.dagger).hamiltonian.terms k
      = CC.conj (coeffOf H.hamiltonian.terms k) :=
  QubitHamiltonian.coeffOf_dagger_terms H.hamiltonian.terms hw k

theorem dagger_conjugates_only_witness :
    (QubitHamiltonian.Wellformed ⟨⟨[([(0, Axis.X)], ⟨1, 2⟩)]⟩⟩) ∧
    coeffOf ((QubitHamiltonian.dagger
        ⟨⟨[([(0, Axis.X)], ⟨1, 2⟩)]⟩⟩).hamiltonian.terms) [(0, Axis.X)]
      = CC.conj (coeffOf
          (QubitHamiltonian.mk ⟨[([(0, Axis.X)], ⟨1, 2⟩)]⟩).hamiltonian.terms
          [(0, Axis.X)]) :=
  ⟨by decide, dagger_conjugates_only ⟨⟨[([(0, Axis.X)], ⟨1, 2⟩)]⟩⟩
    (by decide) [(0, Axis.X)]⟩

/-- C7: `conjugate()` maps every term key of `H` to the complex
conjugate of its coefficient multiplied by `(-1)` raised to the number
of Y-axis factors in the key. -/
theorem conjugate_coeff_sign (H : QubitHamiltonian) (hw : H.Wellformed)
    (k : PKey) (v : CC) (hk : lookupTerm k H.hamiltonian.terms = some v) :
    coeffOf (H.conjugate).hamiltonian.terms k
      = CC.zsmul (QubitHamiltonian.ySign k) (CC.conj v) := by
  have h := QubitHamiltonian.coeffOf_conjugate_terms H.hamiltonian.terms hw k
  rw [show (H.conjugate).hamiltonian.terms
      = writeAll (fun kv => CC.zsmul (QubitHamiltonian.ySign kv.1)
          (CC.conj kv.2)) QubitOperator.zeroOp.terms H.hamiltonian.terms
    from rfl, h]
  simp [coeffOf, hk]

theorem conjugate_coeff_sign_witness :
    (QubitHamiltonian.Wellformed ⟨⟨[([(0, Axis.Y), (1, Axis.X)], ⟨2, 3⟩)]⟩⟩) ∧
    lookupTerm [(0, Axis.Y), (1, Axis.X)]
      (QubitHamiltonian.mk
        ⟨[([(0, Axis.Y), (1, Axis.X)], ⟨2, 3⟩)]⟩).hamiltonian.terms
      = some ⟨2, 3⟩ ∧
    coeffOf ((QubitHamiltonian.conjugate
        ⟨⟨[([(0, Axis.Y), (1, Axis.X)], ⟨2, 3⟩)]⟩⟩).hamiltonian.terms)
        [(0, Axis.Y), (1, Axis.X)]
      = CC.zsmul (QubitHamiltonian.ySign [(0, Axis.Y), (1, Axis.X)])
          (CC.conj ⟨2, 3⟩) :=
  ⟨by decide, by decide,
    conjugate_coeff_sign ⟨⟨[([(0, Axis.Y), (1, Axis.X)], ⟨2, 3⟩)]⟩⟩
      (by decide) [(0, Axis.Y), (1, Axis.X)] ⟨2, 3⟩ (by decide)⟩

/-- C8: on every wellformed Hamiltonian, `conjugate(H)` equals
`transpose(dagger(H))` and also `dagger(transpose(H))` under the
operator equality used by `QubitHamiltonian.__eq__`: the Y-count sign
flip and the coefficient conjugation commute. -/
theorem conjugate_eq_transpose_dagger (H : QubitHamiltonian)
    (hw : H.Wellformed) :
    QubitHamiltonian.beqH (H.conjugate) ((H.dagger).transpose) = true ∧
    QubitHamiltonian.beqH (H.conjugate) ((H.transpose).dagger) = true := by
  constructor
  · apply QubitHamiltonian.beqOp_of_pointwise
    intro k
    rw [QubitHamiltonian.coeffOf_conjugate_eq H hw k,
      QubitHamiltonian.coeffOf_transpose_eq (H.dagger)
        (QubitHamiltonian.dagger_wellformed H) k,
      QubitHamiltonian.coeffOf_dagger_eq H hw k]
  · apply QubitHamiltonian.beqOp_of_pointwise
    intro k
    rw [QubitHamiltonian.coeffOf_conjugate_eq H hw k,
      QubitHamiltonian.coeffOf_dagger_eq (H.transpose)
        (QubitHamiltonian.transpose_wellformed H) k,
      QubitHamiltonian.coeffOf_transpose_eq H hw k,
      QubitHamiltonian.conj_zsmul]

theorem conjugate_eq_transpose_dagger_witness :
    (QubitHamiltonian.Wellformed
      ⟨⟨[([(0, Axis.Y)], ⟨2, 3⟩), ([(1, Axis.X)], ⟨5, 7⟩)]⟩⟩) ∧
    (QubitHamiltonian.beqH
      (QubitHamiltonian.conjugate
        ⟨⟨[([(0, Axis.Y)], ⟨2, 3⟩), ([(1, Axis.X)], ⟨5, 7⟩)]⟩⟩)
      (QubitHamiltonian.transpose (QubitHamiltonian.dagger
        ⟨⟨[([(0, Axis.Y)], ⟨2, 3⟩), ([(1, Axis.X)], ⟨5, 7⟩)]⟩⟩)) = true ∧
    QubitHamiltonian.beqH
      (QubitHamiltonian.conjugate
        ⟨⟨[([(0, Axis.Y)], ⟨2, 3⟩), ([(1, Axis.X)], ⟨5, 7⟩)]⟩⟩)
      (QubitHamiltonian.dagger (QubitHamiltonian.transpose
        ⟨⟨[([(0, Axis.Y)], ⟨2, 3⟩), ([(1, Axis.X)], ⟨5, 7⟩)]⟩⟩)) = true) :=
  ⟨by decide, conjugate_eq_transpose_dagger
    ⟨⟨[([(0, Axis.Y)], ⟨2, 3⟩), ([(1, Axis.X)], ⟨5, 7⟩)]⟩⟩ (by decide)⟩

/-- C9: `is_hermitian()` returns true iff every coefficient of the sum
has zero imaginary part, and `is_antihermitian()` returns true iff
every coefficient has zero real part. -/
theorem hermitian_checks_characterize (H : QubitHamiltonian) :
    (QubitHamiltonian.is_hermitian H = true ↔
      ∀ v ∈ QubitHamiltonian.valuesOf H, v.im = 0) ∧
    (QubitHamiltonian.is_antihermitian H = true ↔
      ∀ v ∈ QubitHamiltonian.valuesOf H, v.re = 0) := by
  constructor
  · simp only [QubitHamiltonian.is_hermitian, List.all_eq_true,
      QubitHamiltonian.valuesOf, List.mem_map, beq_iff_eq]
    constructor
    · rintro h v ⟨kv, hkv, rfl⟩
      exact h kv hkv
    · intro h kv hkv
      exact h kv.2 ⟨kv, hkv, rfl⟩
  · simp only [QubitHamiltonian.is_antihermitian, List.all_eq_true,
      QubitHamiltonian.valuesOf, List.mem_map, beq_iff_eq]
    constructor
    · rintro h v ⟨kv, hkv, rfl⟩
      exact h kv hkv
    · intro h kv hkv
      exact h kv.2 ⟨kv, hkv, rfl⟩

theorem dataLookup_eq_none_of_not_mem {d : List (Nat × Axis)} {q : Nat}
    (h : q ∉ d.map Prod.fst) : PauliString.dataLookup q d = none := by
  induction d with
  | nil => rfl
  | cons hd tl ih =>
      obtain ⟨q0, a0⟩ := hd
      simp only [List.map_cons, List.mem_cons, not_or] at h
      simp [PauliString.dataLookup, Ne.symm h.1, ih h.2]

/-- C10: `PauliString.__eq__` holds iff the two qubit-to-axis dicts are
equal as maps; the coefficients are not compared, so two terms with the
same Pauli structure and different coefficients compare equal. -/
theorem pauliString_eq_structure_only :
    (∀ a b : PauliString,
      (PauliString.eqPS a b = true ↔
        ∀ q, PauliString.dataLookup q a.data
          = PauliString.dataLookup q b.data)) ∧
    (∀ (d : List (Nat × Axis)) (c1 c2 : Option CC),
      PauliString.eqPS ⟨d, c1⟩ ⟨d, c2⟩ = true) := by
  constructor
  · intro a b
    constructor
    · intro h q
      by_cases hq : q ∈ a.data.map Prod.fst ++ b.data.map Prod.fst
      · have := List.all_eq_true.mp h q hq
        exact beq_iff_eq.mp this
      · simp only [List.mem_append, not_or] at hq
        rw [dataLookup_eq_none_of_not_mem hq.1,
          dataLookup_eq_none_of_not_mem hq.2]
    · intro h
      apply List.all_eq_true.mpr
      intro q _
      exact beq_iff_eq.mpr (h q)
  · intro d c1 c2
    apply List.all_eq_true.mpr
    intro q _
    exact beq_iff_eq.mpr rfl

/-- C1: the claim that `nQubits` is total fails on the code.  On
`QubitHamiltonian("X0 Y1")` the getter does return `1 + 1 = 2`, but on
the identity-only sum `init_unit()` (the default Hamiltonian,
terms `{(): 1.0}`) the inner `max(indices)` is Python `max([])`, which
raises `ValueError` instead of yielding the defined value 0 the spec
requires; the failure is modelled as `none`. -/
theorem n_qubits_fails_on_identity :
    QubitHamiltonian.n_qubits
        ⟨⟨[([(0, Axis.X), (1, Axis.Y)], CC.one)]⟩⟩ = some 2 ∧
    QubitHamiltonian.n_qubits QubitHamiltonian.init_unit = none := by
  constructor <;> rfl

/-- C2: the paulistrings round-trip fails on the code.  With
`H0 = QubitHamiltonian` over the single term `X0`, the setter raises
`TypeError` (it passes the keyword `value` to `QubitOperator`, whose
parameter is named `coefficient`); and even with the keyword repaired
the accumulator starts at `QubitOperator.identity()`, so the round
trip produces `H0` plus a spurious identity term of coefficient 1 and
is not equal to `H0` under the operator equality. -/
theorem paulistrings_roundtrip_fails :
    (QubitHamiltonian.paulistrings_set
        (QubitHamiltonian.paulistrings ⟨⟨[([(0, Axis.X)], CC.one)]⟩⟩)
      = Except.error "TypeError: unexpected keyword argument value") ∧
    (QubitOperator.beqOp
        (QubitHamiltonian.paulistrings_set_fixed
          (QubitHamiltonian.paulistrings ⟨⟨[([(0, Axis.X)], CC.one)]⟩⟩))
        (QubitHamiltonian.mk ⟨[([(0, Axis.X)], CC.one)]⟩).hamiltonian
      = false) := by
  constructor
  · rfl
  · decide

/-!
The gate/circuit model and the compiler rewrite rules.  The compiler
module itself (`tequila.circuit.compiler`) is not part of the given
sources; only its tests are.  The definitions below are therefore
modelled from the specification (sections 3, 4.3 and 4.4), and the
circuits they produce are checked against the literal sequences the
in-source tests assert.
-/

/-- Gate kinds used by the rewrite rules under scrutiny. -/
inductive GateKind where
  | X
  | Y
  | Z
  | H
  | S
  | T
  | Rx
  | Ry
  | Rz
  | SWAP
deriving DecidableEq, Repr

/-- Modelled from the spec: a gate operation has a kind, an ordered
list of target qubits, an optional control qubit, an optional
continuous angle and a dagger flag (section 3, Gate). -/
structure Gate where
  kind : GateKind
  targets : List Nat
  control : Option Nat
  angle : Option ℝ
  dag : Bool

/-- Modelled from the spec: a circuit is an ordered gate sequence;
compilation rewrites every matching gate independently and concatenates
the results in order, copying non-matching gates through unchanged
(section 4.4). -/
def compileCircuit (rule : Gate → List Gate) : List Gate → List Gate
  | [] => []
  | g :: rest => rule g ++ compileCircuit rule rest

namespace Gates

def Xg (target : Nat) (control : Option Nat) : Gate :=
  ⟨GateKind.X, [target], control, none, false⟩

def CX (target control : Nat) : Gate := Xg target (some control)

def Hg (target : Nat) (control : Option Nat) : Gate :=
  ⟨GateKind.H, [target], control, none, false⟩

def Sg (target : Nat) (dag : Bool) : Gate :=
  ⟨GateKind.S, [target], none, none, dag⟩

def Tg (target : Nat) : Gate :=
  ⟨GateKind.T, [target], none, none, false⟩

def Rzg (target : Nat) (angle : ℝ) : Gate :=
  ⟨GateKind.Rz, [target], none, some angle, false⟩

def SWAPg (first second : Nat) : Gate :=
  ⟨GateKind.SWAP, [first, second], none, none, false⟩

/-- A rotation gate about the given axis with a control. -/
def rotKind : Axis → GateKind
  | Axis.X => GateKind.Rx
  | Axis.Y => GateKind.Ry
  | Axis.Z => GateKind.Rz

def CRot (axis : Axis) (target control : Nat) (angle : ℝ) : Gate :=
  ⟨rotKind axis, [target], some control, some angle, false⟩

end Gates

/-- Modelled from the spec: `SWAP(a,b)` rewrites to the three CNOTs
`CX(target=a,control=b), CX(target=b,control=a), CX(target=a,control=b)`;
other gates pass through (section 4.4). -/
def compile_swap : List Gate → List Gate :=
  compileCircuit fun g =>
    match g with
    | ⟨GateKind.SWAP, [a, b], none, _, false⟩ =>
        [Gates.CX a b, Gates.CX b a, Gates.CX a b]
    | g => [g]

/-- Modelled from the spec: a controlled `H(target, control)` rewrites
to the fixed 11-gate sequence
`H(t), S(t,dagger), CX(t,c), H(t), T(t), CX(t,c), T(t), H(t), S(t),
X(t), S(c)`; other gates pass through (section 4.4). -/
def compile_ch : List Gate → List Gate :=
  compileCircuit fun g =>
    match g with
    | ⟨GateKind.H, [t], some c, _, false⟩ =>
        [Gates.Hg t none, Gates.Sg t true, Gates.CX t c, Gates.Hg t none,
         Gates.Tg t, Gates.CX t c, Gates.Tg t, Gates.Hg t none,
         Gates.Sg t false, Gates.Xg t none, Gates.Sg c false]
    | g => [g]

/-- C4: compiling a SWAP gate on qubits `a` and `b` yields exactly the
literal three-CNOT sequence `CX(a,b), CX(b,a), CX(a,b)`, gate by gate
in order; in particular for SWAP(0,3). -/
theorem compile_swap_three_cnots (a b : Nat) :
    compile_swap [Gates.SWAPg a b]
      = [Gates.CX a b, Gates.CX b a, Gates.CX a b] := rfl

/-- C5: compiling a controlled Hadamard `H(target, control)` yields
exactly the fixed 11-gate sequence `H(t), S(t,dagger), CX(t,c), H(t),
T(t), CX(t,c), T(t), H(t), S(t), X(t), S(c)`, gate by gate in order. -/
theorem compile_ch_eleven_gates (t c : Nat) :
    compile_ch [Gates.Hg t (some c)]
      = [Gates.Hg t none, Gates.Sg t true, Gates.CX t c, Gates.Hg t none,
         Gates.Tg t, Gates.CX t c, Gates.Tg t, Gates.Hg t none,
         Gates.Sg t false, Gates.Xg t none, Gates.Sg c false] := rfl

/-- Modelled from the spec: `change_basis(target, axis, daggered)`
inserts the basis-rotation gate(s) between the computational (Z)
eigenbasis and the requested axis's eigenbasis: identity for Z,
Hadamard for X, and an S/H pair -- or its inverse when `daggered` --
for Y (section 4.4).  The orientation of the phase gate in the Y pair
is fixed by `test_basis_change` in the in-source test suite, which
requires conjugation by `change_basis` to turn an `Rz` rotation into
the corresponding axis rotation: the pair realizing this is
S-dagger-then-Hadamard (daggered: Hadamard-then-S). -/
def change_basis (target : Nat) (axis : Axis) (daggered : Bool) :
    List Gate :=
  match axis, daggered with
  | Axis.X, _ => [Gates.Hg target none]
  | Axis.Y, false => [Gates.Sg target true, Gates.Hg target none]
  | Axis.Y, true => [Gates.Hg target none, Gates.Sg target false]
  | Axis.Z, _ => []

/-- Modelled from the spec: the single-control decomposition of a
controlled rotation (section 4.4): basis-change the rotation axis to
the computational axis, apply the CNOT-sandwich
`Rz(theta/2), CX, Rz(-theta/2), CX` carried natively by the Z axis,
then basis-change back. -/
noncomputable def crotRule (axis : Axis) (t c : Nat) (theta : ℝ) : List Gate :=
  change_basis t axis false ++
    [Gates.Rzg t (theta / 2), Gates.CX t c,
     Gates.Rzg t (-(theta / 2)), Gates.CX t c] ++
    change_basis t axis true

/-- Modelled from the spec: `compile_controlled_rotation` rewrites
every controlled rotation gate in the circuit by `crotRule` and passes
other gates through (section 4.4). -/
noncomputable def compile_controlled_rotation : List Gate → List Gate :=
  compileCircuit fun g =>
    match g with
    | ⟨GateKind.Rx, [t], some c, some theta, false⟩ =>
        crotRule Axis.X t c theta
    | ⟨GateKind.Ry, [t], some c, some theta, false⟩ =>
        crotRule Axis.Y t c theta
    | ⟨GateKind.Rz, [t], some c, some theta, false⟩ =>
        crotRule Axis.Z t c theta
    | g => [g]

/-- A 2x2 complex matrix, the action of a one-qubit gate on the target
qubit's state. -/
structure M2 where
  a : ℂ
  b : ℂ
  c : ℂ
  d : ℂ

namespace M2

noncomputable def mul (m n : M2) : M2 :=
  ⟨m.a * n.a + m.b * n.c, m.a * n.b + m.b * n.d,
   m.c * n.a + m.d * n.c, m.c * n.b + m.d * n.d⟩

noncomputable def one : M2 := ⟨1, 0, 0, 1⟩

/-- Matrix-vector application: the action on a target-qubit state. -/
noncomputable def applyV (m : M2) (v : ℂ × ℂ) : ℂ × ℂ :=
  (m.a * v.1 + m.b * v.2, m.c * v.1 + m.d * v.2)

theorem extM {m n : M2} (ha : m.a = n.a) (hb : m.b = n.b)
    (hc : m.c = n.c) (hd : m.d = n.d) : m = n := by
  cases m
  cases n
  simp_all

theorem mul_one' (m : M2) : mul m one = m := by
  apply extM <;> simp [mul, one]

theorem one_mul' (m : M2) : mul one m = m := by
  apply extM <;> simp [mul, one]

end M2

/-- The phase `exp(i x)` for a real `x`. -/
noncomputable def ephase (x : ℝ) : ℂ := Complex.exp ((x : ℂ) * Complex.I)

theorem ephase_mul (x y : ℝ) : ephase x * ephase y = ephase (x + y) := by
  rw [ephase, ephase, ephase, ← Complex.exp_add]
  congr 1
  push_cast
  ring

theorem ephase_zero : ephase 0 = 1 := by
  simp [ephase]

theorem ephase_cos_sin (x : ℝ) :
    ephase x = Complex.cos (x : ℂ) + Complex.sin (x : ℂ) * Complex.I := by
  rw [ephase]
  exact Complex.exp_mul_I _

/-- The standard rotation gate about Z: `diag(exp(-i theta/2),
exp(i theta/2))`. -/
noncomputable def RzM (theta : ℝ) : M2 :=
  ⟨ephase (-(theta / 2)), 0, 0, ephase (theta / 2)⟩

/-- The standard rotation gate about X. -/
noncomputable def RxM (theta : ℝ) : M2 :=
  ⟨Complex.cos ((theta : ℂ) / 2), -(Complex.sin ((theta : ℂ) / 2) * Complex.I),
   -(Complex.sin ((theta : ℂ) / 2) * Complex.I), Complex.cos ((theta : ℂ) / 2)⟩

/-- The standard rotation gate about Y. -/
noncomputable def RyM (theta : ℝ) : M2 :=
  ⟨Complex.cos ((theta : ℂ) / 2), -(Complex.sin ((theta : ℂ) / 2)),
   Complex.sin ((theta : ℂ) / 2), Complex.cos ((theta : ℂ) / 2)⟩

/-- `1/sqrt 2`. -/
noncomputable def invsq : ℂ := (((Real.sqrt 2 : ℝ) : ℂ))⁻¹

theorem invsq_sq : invsq * invsq = (2 : ℂ)⁻¹ := by
  rw [invsq, ← mul_inv, ← Complex.ofReal_mul,
    Real.mul_self_sqrt (by norm_num)]
  norm_num

/-- The Hadamard gate. -/
noncomputable def HM : M2 := ⟨invsq, invsq, invsq, -invsq⟩

/-- The phase gate S and its adjoint. -/
noncomputable def SM : M2 := ⟨1, 0, 0, Complex.I⟩

noncomputable def SdM : M2 := ⟨1, 0, 0, -Complex.I⟩

/-- The Pauli X gate. -/
noncomputable def XM : M2 := ⟨0, 1, 1, 0⟩

noncomputable def rotM : Axis → ℝ → M2
  | Axis.X => RxM
  | Axis.Y => RyM
  | Axis.Z => RzM

theorem rz_cancel (theta : ℝ) (m : M2) :
    M2.mul (RzM (-(theta / 2))) (M2.mul (RzM (theta / 2)) m) = m := by
  apply M2.extM <;>
    simp [M2.mul, RzM, ← mul_assoc, ephase_mul]
  all_goals ring_nf
  all_goals simp [ephase_zero]

theorem rz_sandwich (theta : ℝ) (m : M2) :
    M2.mul XM (M2.mul (RzM (-(theta / 2)))
      (M2.mul XM (M2.mul (RzM (theta / 2)) m)))
    = M2.mul (RzM theta) m := by
  apply M2.extM <;>
    simp [M2.mul, RzM, XM, ← mul_assoc, ephase_mul]
  all_goals ring_nf
  all_goals try simp

theorem h_h (m : M2) : M2.mul HM (M2.mul HM m) = m := by
  apply M2.extM <;>
    simp only [M2.mul, HM] <;>
    ring_nf <;>
    simp [pow_two, invsq_sq] <;>
    ring

theorem h_rz_h (theta : ℝ) (m : M2) :
    M2.mul HM (M2.mul (RzM theta) (M2.mul HM m))
    = M2.mul (RxM theta) m := by
  apply M2.extM <;>
    simp only [M2.mul, HM, RzM, RxM, ephase_cos_sin] <;>
    push_cast <;>
    simp [Complex.cos_neg, Complex.sin_neg] <;>
    ring_nf <;>
    simp [pow_two, invsq_sq] <;>
    ring

theorem s_rx_sd (theta : ℝ) (m : M2) :
    M2.mul SM (M2.mul (RxM theta) (M2.mul SdM m))
    = M2.mul (RyM theta) m := by
  apply M2.extM <;>
    simp only [M2.mul, SM, SdM, RxM, RyM] <;>
    ring_nf <;>
    simp [pow_two, Complex.I_mul_I] <;>
    ring

theorem s_sd (m : M2) : M2.mul SM (M2.mul SdM m) = m := by
  apply M2.extM <;>
    simp only [M2.mul, SM, SdM] <;>
    ring_nf <;>
    simp [pow_two, Complex.I_mul_I]

/-- A two-qubit operator that is block-diagonal with respect to the
control qubit: `b0` acts on the target when the control is 0, `b1`
when it is 1.  Every gate in the circuits under scrutiny (gates on the
single target qubit, optionally controlled by the single control
qubit) has this form, so the semantics is faithful for them. -/
structure BDOp where
  b0 : M2
  b1 : M2

namespace BDOp

noncomputable def mul (m n : BDOp) : BDOp :=
  ⟨M2.mul m.b0 n.b0, M2.mul m.b1 n.b1⟩

noncomputable def one : BDOp := ⟨M2.one, M2.one⟩

end BDOp

/-- A gate acting only on the target qubit. -/
noncomputable def targetOp (m : M2) : BDOp := ⟨m, m⟩

/-- Denotation of the gate vocabulary appearing in the controlled
rotation, its compilation, and the basis changes: rotations, H, S
(optionally daggered) and X, each optionally controlled by the single
control qubit. -/
noncomputable def gateBD (g : Gate) : BDOp :=
  match g.kind, g.control, g.angle, g.dag with
  | GateKind.Rz, none, some theta, false => targetOp (RzM theta)
  | GateKind.Rz, some _, some theta, false => ⟨M2.one, RzM theta⟩
  | GateKind.Rx, none, some theta, false => targetOp (RxM theta)
  | GateKind.Rx, some _, some theta, false => ⟨M2.one, RxM theta⟩
  | GateKind.Ry, none, some theta, false => targetOp (RyM theta)
  | GateKind.Ry, some _, some theta, false => ⟨M2.one, RyM theta⟩
  | GateKind.H, none, _, false => targetOp HM
  | GateKind.S, none, _, false => targetOp SM
  | GateKind.S, none, _, true => targetOp SdM
  | GateKind.X, none, _, false => targetOp XM
  | GateKind.X, some _, _, false => ⟨M2.one, XM⟩
  | _, _, _, _ => BDOp.one

/-- Denotation of a circuit: the product of its gates' denotations in
application order (the first gate of the list acts first). -/
noncomputable def circuitBD (circ : List Gate) : BDOp :=
  circ.foldl (fun acc g => BDOp.mul (gateBD g) acc) BDOp.one

/-- The output wavefunction of a block-diagonal operator on an input
with a definite control value: the control block applied to the target
state. -/
noncomputable def applyBD (op : BDOp) (ctrl : Bool) (v : ℂ × ℂ) : ℂ × ℂ :=
  M2.applyV (if ctrl then op.b1 else op.b0) v

theorem rz_cancel0 (theta : ℝ) :
    M2.mul (RzM (-(theta / 2))) (RzM (theta / 2)) = M2.one := by
  have h := rz_cancel theta M2.one
  simp only [M2.mul_one'] at h
  exact h

theorem rz_sandwich0 (theta : ℝ) :
    M2.mul XM (M2.mul (RzM (-(theta / 2))) (M2.mul XM (RzM (theta / 2))))
    = RzM theta := by
  have h := rz_sandwich theta M2.one
  simp only [M2.mul_one'] at h
  exact h

theorem h_h0 : M2.mul HM HM = M2.one := by
  have h := h_h M2.one
  simp only [M2.mul_one'] at h
  exact h

theorem h_rz_h0 (theta : ℝ) :
    M2.mul HM (M2.mul (RzM theta) HM) = RxM theta := by
  have h := h_rz_h theta M2.one
  simp only [M2.mul_one'] at h
  exact h

theorem s_rx_sd0 (theta : ℝ) :
    M2.mul SM (M2.mul (RxM theta) SdM) = RyM theta := by
  have h := s_rx_sd theta M2.one
  simp only [M2.mul_one'] at h
  exact h

theorem s_sd0 : M2.mul SM SdM = M2.one := by
  have h := s_sd M2.one
  simp only [M2.mul_one'] at h
  exact h

/-- C3: for every axis in X, Y, Z, every angle, every (target, control)
qubit pair and every control value, the circuit produced by
`compile_controlled_rotation` from the controlled rotation produces
the same output wavefunction as the original controlled rotation up to
a global phase of unit magnitude (here the phase is exactly 1). -/
theorem compile_controlled_rotation_equiv (axis : Axis) (t c : Nat)
    (theta : ℝ) (ctrl : Bool) :
    ∃ ph : ℂ, Complex.abs ph = 1 ∧ ∀ v : ℂ × ℂ,
      applyBD (circuitBD
          (compile_controlled_rotation [Gates.CRot axis t c theta])) ctrl v
        = ph • applyBD (circuitBD [Gates.CRot axis t c theta]) ctrl v := by
  refine ⟨1, by simp, fun v => ?_⟩
  rw [one_smul]
  have hblocks : circuitBD
      (compile_controlled_rotation [Gates.CRot axis t c theta])
      = circuitBD [Gates.CRot axis t c theta] := by
    cases axis with
    | X =>
        show BDOp.mk _ _ = BDOp.mk _ _
        simp only [compile_controlled_rotation, compileCircuit, crotRule,
          change_basis, circuitBD, List.foldl, List.append_nil, Gates.CRot,
          Gates.rotKind, Gates.Rzg, Gates.CX, Gates.Xg, Gates.Hg, gateBD,
          targetOp, BDOp.mul, BDOp.one]
        congr 1
        · simp only [M2.one_mul', M2.mul_one']
          rw [rz_cancel, h_h0]
        · simp only [M2.one_mul', M2.mul_one']
          rw [rz_sandwich, h_rz_h0]
    | Y =>
        show BDOp.mk _ _ = BDOp.mk _ _
        simp only [compile_controlled_rotation, compileCircuit, crotRule,
          change_basis, circuitBD, List.foldl, List.append_nil, Gates.CRot,
          Gates.rotKind, Gates.Rzg, Gates.CX, Gates.Xg, Gates.Hg, Gates.Sg,
          gateBD, targetOp, BDOp.mul, BDOp.one]
        congr 1
        · simp only [M2.one_mul', M2.mul_one']
          rw [rz_cancel, h_h, s_sd0]
        · simp only [M2.one_mul', M2.mul_one']
          rw [rz_sandwich, h_rz_h, s_rx_sd0]
    | Z =>
        show BDOp.mk _ _ = BDOp.mk _ _
        simp only [compile_controlled_rotation, compileCircuit, crotRule,
          change_basis, circuitBD, List.foldl, List.append_nil, Gates.CRot,
          Gates.rotKind, Gates.Rzg, Gates.CX, Gates.Xg, gateBD,
          targetOp, BDOp.mul, BDOp.one]
        congr 1
        · simp only [M2.one_mul', M2.mul_one']
          rw [rz_cancel0]
        · simp only [M2.one_mul', M2.mul_one']
          rw [rz_sandwich0]
  rw [hblocks]
